import Mathlib

/-!
Verification development for the word_splitter repository.

The embedding below models, in Lean, the chapter-splitting core of
word_splitter.py: outline-level classification of paragraphs, heading
extraction, the branch-depth analysis, the chapter-boundary planner,
the boundary-resolution pass, table association and filename
sanitization.  Python strings are modelled as Lean String/List Char;
Python ints as Int (Nat where the source value is known non-negative);
the dict current_levels as a function Nat → Option _ updated exactly as
the source updates the dict; Python code that can raise is modelled
with Except and the catching try/except as the handler fold.
-/

namespace WordSplitter

/-- Record for one entry of all_headings in analyze_document_structure:
level, title (the stripped paragraph text) and paragraph_index. -/
structure Heading where
  level : Nat
  title : String
  paragraph_index : Nat
  deriving DecidableEq, Repr

/-- The ChapterInfo dataclass of word_splitter.py. -/
structure ChapterInfo where
  title : String
  level : Nat
  start_paragraph : Nat
  end_paragraph : Nat
  paragraphs : List Nat
  deriving DecidableEq, Repr

/-- The w:outlineLvl attribute of a paragraph, as _calculate_outline_level
reads it: absent (no pPr or no outlineLvl element), malformed (the element is
there but int(...) of its value raises, which the enclosing try/except turns
into level 0), or a parsed integer value (0-based). -/
inductive OutlineAttr where
  | absent : OutlineAttr
  | malformed : OutlineAttr
  | val : Int → OutlineAttr
  deriving DecidableEq, Repr

/-- The data of a paragraph that _calculate_outline_level consults:
the style name, the outline-level attribute and the raw text. -/
structure Paragraph where
  style_name : String
  outline_attr : OutlineAttr
  text : String
  deriving DecidableEq, Repr

/-! ## Character and string primitives mirroring the Python ones -/

/-- Whitespace as Python's unicode str.strip() / regex \s see it
(the whitespace code points up to U+3000). -/
def pyIsSpace (c : Char) : Bool :=
  [' ', '\t', '\n', '\r', '\x0b', '\x0c', '\x1c', '\x1d', '\x1e', '\x1f',
   '\x85', '\xa0', '\u1680', '\u2000', '\u2001', '\u2002', '\u2003', '\u2004',
   '\u2005', '\u2006', '\u2007', '\u2008', '\u2009', '\u200a', '\u2028',
   '\u2029', '\u202f', '\u205f', '\u3000'].contains c

/-- Python str.strip(): drop whitespace at both ends. -/
def trimChars (cs : List Char) : List Char :=
  ((cs.dropWhile pyIsSpace).reverse.dropWhile pyIsSpace).reverse

/-- Value of a digit run, most significant first. -/
def digitsToNat (cs : List Char) : Nat :=
  cs.foldl (fun n c => n * 10 + (c.toNat - '0'.toNat)) 0

/-- Python int(s) on the already stripped character list: an optional sign
followed by one or more digits; anything else raises (modelled as none). -/
def parseIntChars (cs : List Char) : Option Int :=
  match cs with
  | [] => none
  | '-' :: rest =>
      if !rest.isEmpty && rest.all Char.isDigit then some (-(digitsToNat rest : Int)) else none
  | '+' :: rest =>
      if !rest.isEmpty && rest.all Char.isDigit then some ((digitsToNat rest : Int)) else none
  | _ => if cs.all Char.isDigit then some ((digitsToNat cs : Int)) else none

/-- Python int(s) on a string (int() ignores surrounding whitespace;
ASCII digits model Python's digit class). -/
def pyInt (s : String) : Option Int :=
  parseIntChars (trimChars s.data)

/-- re.search of a digit run: the first maximal run of digits, parsed. -/
def firstNumberChars : List Char → Option Nat
  | [] => none
  | c :: rest =>
      if c.isDigit then some (digitsToNat (c :: rest.takeWhile Char.isDigit))
      else firstNumberChars rest

/-- Does hay contain needle as a contiguous segment (Python substring test). -/
def containsSeg (needle : List Char) : List Char → Bool
  | [] => needle.isEmpty
  | c :: rest => needle.isPrefixOf (c :: rest) || containsSeg needle rest

/-- Python str.startswith. -/
def strStartsWith (s pre : String) : Bool :=
  pre.data.isPrefixOf s.data

/-- Helper for removeSeg, structurally recursive on a fuel bounded by the
length of the scanned list (each step consumes one fuel and at least one
character, so fuel = length is enough). -/
def removeSegAux (pat : List Char) : Nat → List Char → List Char
  | _, [] => []
  | 0, l => l
  | Nat.succ fuel, c :: rest =>
      if !pat.isEmpty && pat.isPrefixOf (c :: rest) then
        removeSegAux pat fuel (rest.drop (pat.length - 1))
      else c :: removeSegAux pat fuel rest

/-- Python str.replace(pat, ''): delete every (left-to-right, non
overlapping) occurrence of pat. -/
def removeSeg (pat l : List Char) : List Char :=
  removeSegAux pat l.length l

/-- Python ' - '.join(titles) and friends. -/
def joinSep (sep : String) : List String → String
  | [] => ""
  | [t] => t
  | t :: t2 :: ts => t ++ sep ++ joinSep sep (t2 :: ts)

/-! ## Outline-level classification (_calculate_outline_level) -/

/-- The heading_keywords list of _looks_like_heading. -/
def headingKeywords : List String :=
  ["绪论", "引言", "前言", "概述", "背景", "意义", "目的",
   "文献综述", "理论基础", "研究方法", "分析", "讨论",
   "结论", "总结", "展望", "参考文献", "致谢", "谢辞", "附录"]

/-- The Chinese numerals of the chapter-numbering pattern. -/
def cnNums : List Char := ['一', '二', '三', '四', '五', '六', '七', '八', '九', '十']

/-- Does the text match the anchored pattern: one or more Chinese numerals
followed by a Chinese comma. -/
def startsCnNumList (t : List Char) : Bool :=
  let run := t.takeWhile (fun c => cnNums.contains c)
  !run.isEmpty && ((t.drop run.length).head? == some '、')

/-- Does the text match the anchored pattern: one or more digits followed by
a Chinese comma or a dot. -/
def startsDigitList (t : List Char) : Bool :=
  let run := t.takeWhile Char.isDigit
  !run.isEmpty &&
    (match (t.drop run.length).head? with
     | some c => c == '、' || c == '.'
     | none => false)

/-- The _looks_like_heading heuristic of word_splitter.py: Chinese or digit
chapter numbering, a heading keyword, or short text without a full stop. -/
def looks_like_heading (text : String) : Bool :=
  let t := trimChars text.data
  if t.isEmpty then false
  else if startsCnNumList t then true
  else if startsDigitList t then true
  else if headingKeywords.any (fun kw => containsSeg kw.data t) then true
  else if t.length ≤ 50 && !t.contains '。' then true
  else false

/-- Body of _calculate_outline_level inside its try: the three style-name
branches return normally; otherwise the outline attribute is consulted, and a
malformed attribute value makes int(...) raise (Except.error). -/
def calcOutlineLevelExc (p : Paragraph) : Except Unit Int :=
  if strStartsWith p.style_name "Heading " then
    Except.ok (match pyInt (String.mk (removeSeg ("Heading ".data) p.style_name.data)) with
      | some n => n
      | none => 1)
  else if containsSeg ("标题".data) p.style_name.data then
    Except.ok (match firstNumberChars p.style_name.data with
      | some n => (n : Int)
      | none => 1)
  else if strStartsWith p.style_name "样式" then
    Except.ok (match firstNumberChars p.style_name.data with
      | some n =>
          let t := trimChars p.text.data
          if !t.isEmpty && looks_like_heading (String.mk t) then (n : Int) else 0
      | none => 0)
  else
    match p.outline_attr with
    | OutlineAttr.absent => Except.ok 0
    | OutlineAttr.malformed => Except.error ()
    | OutlineAttr.val n => Except.ok (n + 1)

/-- _calculate_outline_level: the try body with the except handler that
returns 0 on any raised exception. -/
def calculate_outline_level (p : Paragraph) : Int :=
  match calcOutlineLevelExc p with
  | Except.ok n => n
  | Except.error _ => 0

/-- The heading-collection loop of analyze_document_structure: a paragraph
enters all_headings when its outline level is positive and its stripped text
is non-empty; the stored title is the stripped text. -/
def extractHeadings (paras : List Paragraph) : List Heading :=
  paras.enum.filterMap (fun pr =>
    let lvl := calculate_outline_level pr.2
    let t := trimChars pr.2.text.data
    if 0 < lvl ∧ ¬ t.isEmpty then
      some { level := lvl.toNat, title := String.mk t, paragraph_index := pr.1 }
    else none)

/-! ## The chapter-boundary planner (analyze_document_structure core) -/

/-- One step of the current_levels dict update: current_levels[L] = h, then
every key strictly greater than L is deleted. -/
def pathStep (path : Nat → Option Heading) (h : Heading) : Nat → Option Heading :=
  fun l => if l = h.level then some h else if h.level < l then none else path l

/-- The current_levels state after scanning a list of headings. -/
def pathAfter (hs : List Heading) : Nat → Option Heading :=
  hs.foldl pathStep (fun _ => none)

/-- The current_path dict built at the top of _get_branch_max_level and
_belongs_to_current_branch: scan the first n headings and record, per level
at most lvl, the most recent title.  (The break in the source fires only in
the final iteration, after the record step, so it does not change the
result.) -/
def pathUpTo (hs : List Heading) (n lvl : Nat) : Nat → Option String :=
  (hs.take n).foldl
    (fun pa h =>
      if h.level ≤ lvl then (fun l => if l = h.level then some h.title else pa l) else pa)
    (fun _ => none)

/-- _belongs_to_current_branch: rebuild the path to the given heading and
compare it with current_path at every level from 1 to current_level. -/
def belongs_to_current_branch (hs : List Heading) (heading_index : Nat)
    (current_path : Nat → Option String) (current_level : Nat) : Bool :=
  let p2 := pathUpTo hs (heading_index + 1) current_level
  (List.range' 1 current_level).all (fun l => decide (current_path l = p2 l))

/-- _get_branch_max_level: scan the headings after current_index while their
level stays strictly above current_level, and accumulate the maximum level of
those that belong to the current branch. -/
def get_branch_max_level (hs : List Heading) (current_index current_level : Nat) : Nat :=
  let cp := pathUpTo hs (current_index + 1) current_level
  let scanned := (hs.enum.drop (current_index + 1)).takeWhile
    (fun pr => decide (current_level < pr.2.level))
  scanned.foldl
    (fun m pr => if belongs_to_current_branch hs pr.1 cp current_level then max m pr.2.level else m)
    current_level

/-- _should_create_chapter_at_position: create exactly when the current level
equals min(min_level, branch max level). -/
def should_create_chapter_at_position (hs : List Heading)
    (current_index current_level min_level : Nat) : Bool :=
  current_level == min min_level (get_branch_max_level hs current_index current_level)

/-- The titles list _build_chapter_title joins: the titles of current_levels
for the levels up to target_level, in increasing level order.  (Scanning
levels 0..target_level is faithful because the scan state never holds an
entry above the level of the heading just processed, and never at level
0.) -/
def titleParts (current_levels : Nat → Option Heading) (target_level : Nat) : List String :=
  (List.range (target_level + 1)).filterMap (fun l => (current_levels l).map Heading.title)

/-- _build_chapter_title: join the titles of current_levels for the levels up
to target_level, in increasing level order; fall back to a placeholder when
there are none. -/
def build_chapter_title (current_levels : Nat → Option Heading) (target_level : Nat) : String :=
  if (titleParts current_levels target_level).isEmpty then "章节_" ++ toString target_level
  else joinSep " - " (titleParts current_levels target_level)

/-- The current_levels state at the moment the planning loop processes the
heading h standing at index i of the heading list: the fold of the scanned
prefix extended by the update for h itself. -/
def emissionPath (hs : List Heading) (i : Nat) (h : Heading) : Nat → Option Heading :=
  pathStep (pathAfter (hs.take i)) h

/-- The ChapterInfo built at a split point, before boundary resolution. -/
def mkChapter (path : Nat → Option Heading) (h : Heading) : ChapterInfo :=
  { title := build_chapter_title path h.level
    level := h.level
    start_paragraph := h.paragraph_index
    end_paragraph := h.paragraph_index
    paragraphs := [h.paragraph_index] }

/-- The planning loop of analyze_document_structure over the remaining
headings; i is the absolute index of the head of rem inside hs, and path the
current_levels state before processing it. -/
def planAux (hs : List Heading) (min_level : Nat) :
    List Heading → Nat → (Nat → Option Heading) → List ChapterInfo
  | [], _, _ => []
  | h :: rest, i, path =>
      let path' := pathStep path h
      let tail := planAux hs min_level rest (i + 1) path'
      if should_create_chapter_at_position hs i h.level min_level then
        mkChapter path' h :: tail
      else tail

/-- The chapter list produced by the planner's single left-to-right pass. -/
def planChapters (hs : List Heading) (min_level : Nat) : List ChapterInfo :=
  planAux hs min_level hs 0 (fun _ => none)

/-! ## Boundary resolution (_set_chapter_boundaries) -/

/-- The condition of the inner scan of _set_chapter_boundaries: a heading
strictly between the chapter's start and the next chapter's start whose level
is at most the chapter's level. -/
def orphanBetween (ch next : ChapterInfo) (hd : Heading) : Prop :=
  ch.start_paragraph < hd.paragraph_index ∧
    hd.paragraph_index < next.start_paragraph ∧ hd.level ≤ ch.level

instance (ch next : ChapterInfo) (hd : Heading) : Decidable (orphanBetween ch next hd) := by
  unfold orphanBetween
  exact inferInstance

/-- Boundary resolution for a chapter that is not the last: default end is
next.start - 1, clamped back before the first in-between heading of level at
most the chapter's own; end is never below start; paragraphs is the
contiguous range. -/
def finishMid (heads : List Heading) (ch next : ChapterInfo) : ChapterInfo :=
  let e0 := match heads.find? (fun hd => decide (orphanBetween ch next hd)) with
    | some hd => hd.paragraph_index - 1
    | none => next.start_paragraph - 1
  let e := max ch.start_paragraph e0
  { ch with end_paragraph := e,
            paragraphs := List.range' ch.start_paragraph (e + 1 - ch.start_paragraph) }

/-- Boundary resolution for the last chapter: end is the last paragraph of
the document. -/
def finishLast (total : Nat) (ch : ChapterInfo) : ChapterInfo :=
  let e := total - 1
  { ch with end_paragraph := e,
            paragraphs := List.range' ch.start_paragraph (e + 1 - ch.start_paragraph) }

/-- _set_chapter_boundaries: each chapter but the last is resolved against
the following one and the document's headings; the last against the
paragraph count.  An empty chapter list is returned unchanged. -/
def set_chapter_boundaries (total : Nat) (heads : List Heading) :
    List ChapterInfo → List ChapterInfo
  | [] => []
  | [ch] => [finishLast total ch]
  | ch :: next :: rest =>
      finishMid heads ch next :: set_chapter_boundaries total heads (next :: rest)

/-- analyze_document_structure on the heading list it extracted (the
boundary pass re-derives exactly this list from the document). -/
def analyzeHeadings (hs : List Heading) (total min_level : Nat) : List ChapterInfo :=
  set_chapter_boundaries total hs (planChapters hs min_level)

/-- analyze_document_structure as a function of the paragraph sequence. -/
def analyze_document_structure (paras : List Paragraph) (min_level : Nat) : List ChapterInfo :=
  analyzeHeadings (extractHeadings paras) paras.length min_level

/-! ## Table association (_copy_tables_in_range) -/

/-- One element of the document body, in physical order: a paragraph or a
table, each carrying its index in its own sequence. -/
inductive DocElem where
  | paragraph : Nat → DocElem
  | table : Nat → DocElem
  deriving DecidableEq, Repr

/-- The backward scan of _copy_tables_in_range: the paragraph index of the
nearest paragraph element before position i, if any. -/
def prevParagraphIdx (elems : List DocElem) (i : Nat) : Option Nat :=
  ((elems.take i).reverse).findSome? (fun e => match e with
    | DocElem.paragraph k => some k
    | DocElem.table _ => none)

/-- The forward scan of _copy_tables_in_range: the paragraph index of the
nearest paragraph element after position i, if any. -/
def nextParagraphIdx (elems : List DocElem) (i : Nat) : Option Nat :=
  (elems.drop (i + 1)).findSome? (fun e => match e with
    | DocElem.paragraph k => some k
    | DocElem.table _ => none)

/-- Table selection of word_splitter.py (the module main.py imports): copy
when the nearest preceding paragraph is in the range, and otherwise when the
nearest following paragraph is in the range. -/
def shouldCopyTable (elems : List DocElem) (i : Nat) (paragraph_range : List Nat) : Bool :=
  let prevIn := match prevParagraphIdx elems i with
    | some k => decide (k ∈ paragraph_range)
    | none => false
  if prevIn then true
  else
    match nextParagraphIdx elems i with
    | some k => decide (k ∈ paragraph_range)
    | none => false

/-- Table selection of src/word_splitter.py (the refactored copy): copy only
when the nearest preceding paragraph exists and is in the range; the
following paragraph is then inspected but both of its branches accept. -/
def shouldCopyTableSrc (elems : List DocElem) (i : Nat) (paragraph_range : List Nat) : Bool :=
  match prevParagraphIdx elems i with
  | some k =>
      if decide (k ∈ paragraph_range) then
        match nextParagraphIdx elems i with
        | none => true
        | some m =>
            if !(decide (m ∈ paragraph_range)) then true else decide (m ∈ paragraph_range)
      else false
  | none => false

/-- The tables_to_copy list collected by _copy_tables_in_range of
word_splitter.py. -/
def tablesInRange (elems : List DocElem) (paragraph_range : List Nat) : List Nat :=
  elems.enum.filterMap (fun pr => match pr.2 with
    | DocElem.table t =>
        if shouldCopyTable elems pr.1 paragraph_range then some t else none
    | DocElem.paragraph _ => none)

/-! ## Filename sanitization (_sanitize_filename) -/

/-- The Windows-invalid filename characters replaced by underscores. -/
def invalidChars : List Char := ['<', '>', ':', '"', '/', '\\', '|', '?', '*']

/-- The control characters removed by the sanitizer (C0, DEL and C1). -/
def isCtrlChar (c : Char) : Bool :=
  c.toNat ≤ 0x1f || (0x7f ≤ c.toNat && c.toNat ≤ 0x9f)

/-- The whitespace-run compression re.sub of _sanitize_filename: every
maximal run of whitespace becomes a single space. -/
def collapseSpaces : List Char → List Char
  | [] => []
  | [c] => if pyIsSpace c then [' '] else [c]
  | c1 :: c2 :: rest =>
      if pyIsSpace c1 && pyIsSpace c2 then collapseSpaces (c2 :: rest)
      else (if pyIsSpace c1 then ' ' else c1) :: collapseSpaces (c2 :: rest)

/-- _sanitize_filename of word_splitter.py (identical in both copies):
special whitespace to spaces, invalid characters to underscores, control
characters removed, whitespace runs compressed, ends stripped, empty result
replaced by a placeholder, and the result capped at 100 characters. -/
def sanitize_filename (filename : String) : String :=
  let s1 := filename.data.map (fun c => if c ∈ ['　', '\t', '\n', '\r'] then ' ' else c)
  let s2 := s1.map (fun c => if c ∈ invalidChars then '_' else c)
  let s3 := s2.filter (fun c => !isCtrlChar c)
  let s4 := collapseSpaces s3
  let s5 := trimChars s4
  let s6 := if s5.isEmpty then "未命名章节".data else s5
  String.mk (s6.take 100)

/-! ## Formalizations of the specification's own wording

These definitions follow the words of the specification (not the source);
they exist to be compared with the source embeddings above. -/

/-- Modelled from the spec wording of claim C2 clause (a), reading the two
conventions named there (ASCII prefix plus number, CJK token plus number) as
the Heading and 标题 styles: the level contributed by the style name alone. -/
def claimStyleConventionLevel (p : Paragraph) : Option Int :=
  if strStartsWith p.style_name "Heading " then
    some ((pyInt (String.mk (removeSeg ("Heading ".data) p.style_name.data))).getD 1)
  else if containsSeg ("标题".data) p.style_name.data then
    some (((firstNumberChars p.style_name.data).map (fun n => (n : Int))).getD 1)
  else none

/-- Modelled from the spec wording of claim C2 clause (b): the level
contributed by the explicit 0-based outline attribute. -/
def claimAttrLevel (p : Paragraph) : Option Int :=
  match p.outline_attr with
  | OutlineAttr.val n => some (n + 1)
  | _ => none

/-- The outline level as claim C2 describes it: style convention first, then
the attribute, else 0. -/
def claimOutlineLevel (p : Paragraph) : Int :=
  ((claimStyleConventionLevel p).orElse (fun _ => claimAttrLevel p)).getD 0

/-- The amended classification: like the claim, but with the custom 样式
style family as a third style rule that yields the parsed number only when
the trimmed text passes the heading heuristic and yields 0 otherwise,
without falling through to the outline attribute; and a malformed attribute
value degrades to 0. -/
def styleRuleLevel (p : Paragraph) : Option Int :=
  if strStartsWith p.style_name "Heading " then
    some ((pyInt (String.mk (removeSeg ("Heading ".data) p.style_name.data))).getD 1)
  else if containsSeg ("标题".data) p.style_name.data then
    some (((firstNumberChars p.style_name.data).map (fun n => (n : Int))).getD 1)
  else if strStartsWith p.style_name "样式" then
    some (match firstNumberChars p.style_name.data with
      | some n =>
          if !(trimChars p.text.data).isEmpty &&
              looks_like_heading (String.mk (trimChars p.text.data)) then (n : Int) else 0
      | none => 0)
  else none

/-- The amended outline level: first applicable style rule, then the
attribute, else 0. -/
def outlineLevelAmended (p : Paragraph) : Int :=
  ((styleRuleLevel p).orElse (fun _ => claimAttrLevel p)).getD 0

/-- Does one of the three style-name families of the classifier apply. -/
def styleRecognized (p : Paragraph) : Bool :=
  strStartsWith p.style_name "Heading " ||
    containsSeg ("标题".data) p.style_name.data ||
    strStartsWith p.style_name "样式"

/-- The table-association condition exactly as claim C4 words it: the
nearest preceding paragraph exists and lies in the range, while the
following paragraph does not exist, is not in the range, or is in the
range. -/
def claimTableAssoc (elems : List DocElem) (i : Nat) (paragraph_range : List Nat) : Bool :=
  match prevParagraphIdx elems i with
  | some k =>
      decide (k ∈ paragraph_range) &&
        (match nextParagraphIdx elems i with
         | none => true
         | some m => !(decide (m ∈ paragraph_range)) || decide (m ∈ paragraph_range))
  | none => false

/-! ## Concrete documents used by the claims -/

/-- The heading list of the adaptive-depth example of claim C1. -/
def exHeadings : List Heading :=
  [⟨1, "A", 0⟩, ⟨2, "A.1", 1⟩, ⟨1, "B", 2⟩, ⟨2, "B.1", 3⟩, ⟨3, "B.1.1", 4⟩]

/-- A heading list on which the boundary clamp of _set_chapter_boundaries
fires: with min_level 3, chapters start at paragraphs 2, 4 and 5, and the
orphan level-1 heading B at paragraph 3 clamps the first chapter's end back
to 2, leaving paragraph 3 in no chapter. -/
def cHeads : List Heading :=
  [⟨1, "A", 0⟩, ⟨2, "A1", 1⟩, ⟨3, "A11", 2⟩, ⟨1, "B", 3⟩, ⟨2, "B1", 4⟩, ⟨2, "B2", 5⟩]

/-- The document element order of the table example of claim C4. -/
def exElems : List DocElem :=
  [DocElem.paragraph 0, DocElem.paragraph 1, DocElem.table 0, DocElem.paragraph 2]

/-- A paragraph styled with the custom 样式 family whose text does not pass
the heading heuristic and which carries an explicit outline attribute. -/
def exStylePara : Paragraph := ⟨"样式3", OutlineAttr.val 1, "这是一个测试的段落。"⟩

/-! ## Claims -/

/-- Claim C1: on the heading list [(1,A,0), (2,A.1,1), (1,B,2), (2,B.1,3),
(3,B.1.1,4)] with target split level 5 the planner emits exactly two
chapters, "A - A.1" at level 2 starting at paragraph 1 and
"B - B.1 - B.1.1" at level 3 starting at paragraph 4, and no chapter for
heading B itself (the only heading at paragraph 2). -/
theorem claim1_adaptive_split :
    planChapters exHeadings 5 =
      [{ title := "A - A.1", level := 2, start_paragraph := 1,
         end_paragraph := 1, paragraphs := [1] },
       { title := "B - B.1 - B.1.1", level := 3, start_paragraph := 4,
         end_paragraph := 4, paragraphs := [4] }] ∧
    (planChapters exHeadings 5).filter (fun c => c.start_paragraph == 2) = [] := by
  decide

/-- Counterexample to claim C2: the paragraph with style name 样式3, outline
attribute value 1 and non-heading-looking text is classified by the code as
level 0, while the classification the claim describes gives a positive
level: 2 by rule (b) if the 样式 family is not one of the claimed style
conventions (as formalized in claimOutlineLevel), and the parsed number 3 by
rule (a) if it is — under either reading the claim predicts a positive
level and therefore emission, but the code returns 0 and does not emit. -/
theorem claim2_counterexample :
    calculate_outline_level exStylePara = 0 ∧ claimOutlineLevel exStylePara = 2 ∧
    extractHeadings [exStylePara] = [] := by
  decide

/-- Counterexample to claim C4: in the element order [p0, p1, t0, p2] with
chapter range [2, 2], the code of word_splitter.py (the module main.py
imports) does associate table t0 to the second chapter, because the
preceding paragraph p1 is outside the range but the following paragraph p2
is inside it; the claim's condition (preceding paragraph inside the range)
is false there, and the claim says the table is not associated. -/
theorem claim4_counterexample :
    shouldCopyTable exElems 2 [2] = true ∧
    claimTableAssoc exElems 2 [2] = false ∧
    tablesInRange exElems [2] = [0] := by
  decide

/-- Claim C4 as amended: a table is associated to a chapter range exactly
when its nearest preceding paragraph exists and is inside the range, or no
such in-range preceding paragraph exists and the nearest following
paragraph exists and is inside the range; in the example order
[p0, p1, t0, p2], table t0 is therefore associated both to the chapter with
range [0, 1] and to the chapter with range [2, 2]. -/
theorem claim4_amended (elems : List DocElem) (i : Nat) (paragraph_range : List Nat) :
    (shouldCopyTable elems i paragraph_range = true ↔
      ((∃ k, prevParagraphIdx elems i = some k ∧ k ∈ paragraph_range) ∨
        (¬ (∃ k, prevParagraphIdx elems i = some k ∧ k ∈ paragraph_range) ∧
          ∃ m, nextParagraphIdx elems i = some m ∧ m ∈ paragraph_range))) ∧
    tablesInRange exElems [0, 1] = [0] ∧ tablesInRange exElems [2] = [0] := by
  refine ⟨?_, by decide, by decide⟩
  unfold shouldCopyTable
  rcases hp : prevParagraphIdx elems i with _ | k <;>
    rcases hn : nextParagraphIdx elems i with _ | m <;>
    simp only [hp, hn]
  · simp
  · simp
  · by_cases hk : k ∈ paragraph_range <;> simp [hk]
  · by_cases hk : k ∈ paragraph_range <;> by_cases hm : m ∈ paragraph_range <;>
      simp [hk, hm]

/-- The refactored copy src/word_splitter.py implements exactly the
association condition claim C4 states: its selection agrees with the
claim's condition on every input (both reduce to: the nearest preceding
paragraph exists and is inside the range). -/
lemma shouldCopyTableSrc_eq_claim (elems : List DocElem) (i : Nat)
    (paragraph_range : List Nat) :
    shouldCopyTableSrc elems i paragraph_range = claimTableAssoc elems i paragraph_range := by
  unfold shouldCopyTableSrc claimTableAssoc
  rcases prevParagraphIdx elems i with _ | k
  · rfl
  · rcases nextParagraphIdx elems i with _ | m <;>
      by_cases hk : k ∈ paragraph_range <;> simp [hk]

/-- Counterexample to claim C5: with min_level 3 on the heading list cHeads
over a 6-paragraph document, the chapters cover paragraphs 2, 4 and 5 only;
paragraph 3 (the orphan level-1 heading that triggered the boundary clamp)
belongs to no chapter although it is neither before the first chapter's
start (2) nor after the last chapter's end (5), so the chapter ranges plus
leading/trailing paragraphs do not cover the document. -/
theorem claim5_counterexample :
    analyzeHeadings cHeads 6 3 =
      [{ title := "A - A1 - A11", level := 3, start_paragraph := 2,
         end_paragraph := 2, paragraphs := [2] },
       { title := "B - B1", level := 2, start_paragraph := 4,
         end_paragraph := 4, paragraphs := [4] },
       { title := "B - B2", level := 2, start_paragraph := 5,
         end_paragraph := 5, paragraphs := [5] }] ∧
    ¬ (∀ p : Nat, p < 6 →
        ((∃ c ∈ analyzeHeadings cHeads 6 3, p ∈ c.paragraphs) ∨ p < 2 ∨ 5 < p)) := by
  decide

/-- Claim C2 as amended: the classifier computes, in priority order, the
Heading and 标题 style conventions as the claim states them; then (the
amendment) the custom 样式 style family, which yields the parsed number only
when the trimmed text passes the heading heuristic and 0 otherwise, without
falling through to the outline attribute; then the 0-based outline attribute
plus one; else 0, a malformed attribute value also degrading to 0.  A
paragraph is emitted into the heading list exactly when its computed level
is positive and its trimmed text is non-empty. -/
theorem claim2_amended :
    (∀ p : Paragraph, calculate_outline_level p = outlineLevelAmended p) ∧
    (∀ (paras : List Paragraph) (i : Nat) (p : Paragraph), paras[i]? = some p →
      ((∃ h ∈ extractHeadings paras, h.paragraph_index = i) ↔
        (0 < calculate_outline_level p ∧ ¬ (trimChars p.text.data).isEmpty))) := by
  constructor
  · intro p
    simp only [calculate_outline_level, calcOutlineLevelExc, outlineLevelAmended,
      styleRuleLevel, claimAttrLevel]
    by_cases h1 : strStartsWith p.style_name "Heading " = true
    · simp only [h1, if_true]
      cases pyInt (String.mk (removeSeg ("Heading ".data) p.style_name.data)) <;>
        simp [Option.orElse]
    · simp only [h1, Bool.false_eq_true, if_false]
      by_cases h2 : containsSeg ("标题".data) p.style_name.data = true
      · simp only [h2, if_true]
        cases firstNumberChars p.style_name.data <;> simp [Option.orElse]
      · simp only [h2, Bool.false_eq_true, if_false]
        by_cases h3 : strStartsWith p.style_name "样式" = true
        · simp only [h3, if_true]
          cases firstNumberChars p.style_name.data <;> simp [Option.orElse]
        · simp only [h3, Bool.false_eq_true, if_false]
          cases p.outline_attr <;> simp [Option.orElse]
  · intro paras i p hp
    constructor
    · rintro ⟨h, hmem, hidx⟩
      simp only [extractHeadings, List.mem_filterMap] at hmem
      obtain ⟨pr, hpr, hf⟩ := hmem
      rw [List.mem_enum_iff_getElem?] at hpr
      by_cases hcond : 0 < calculate_outline_level pr.2 ∧ ¬ (trimChars pr.2.text.data).isEmpty
      · have hh : h.paragraph_index = pr.1 := by
          simp only [hcond, if_true] at hf
          cases hf
          rfl
        rw [hh] at hidx
        rw [hidx] at hpr
        rw [hp] at hpr
        cases hpr
        exact hcond
      · rw [if_neg hcond] at hf
        exact Option.noConfusion hf
    · rintro ⟨hlvl, ht⟩
      refine ⟨{ level := (calculate_outline_level p).toNat,
                title := String.mk (trimChars p.text.data), paragraph_index := i },
        ?_, rfl⟩
      simp only [extractHeadings, List.mem_filterMap]
      refine ⟨(i, p), List.mem_enum_iff_getElem?.mpr hp, ?_⟩
      simp [hlvl, ht]

/-- A paragraph with the standard English heading style, used to witness the
amended claim C2 at a concrete input. -/
def exHeadPara : Paragraph := ⟨"Heading 2", OutlineAttr.absent, "  Introduction  "⟩

/-- Witness for the amended claim C2 at the Heading-2-styled paragraph. -/
theorem claim2_witness :
    calculate_outline_level exHeadPara = outlineLevelAmended exHeadPara ∧
    (([exHeadPara] : List Paragraph)[0]? = some exHeadPara ∧
      ((∃ h ∈ extractHeadings [exHeadPara], h.paragraph_index = 0) ↔
        (0 < calculate_outline_level exHeadPara ∧
          ¬ (trimChars exHeadPara.text.data).isEmpty))) :=
  ⟨claim2_amended.1 exHeadPara,
   by decide,
   claim2_amended.2 [exHeadPara] 0 exHeadPara (by decide)⟩

/-- Claim C8: the classifier is total; its one internal failure point (the
int(...) parse of the outline attribute value) is caught and mapped to level
0, and a paragraph whose style matches no recognized family and whose
outline attribute is absent or malformed is classified as level 0. -/
theorem claim8_total_classification :
    (∀ p : Paragraph, calcOutlineLevelExc p = Except.error () → calculate_outline_level p = 0) ∧
    (∀ p : Paragraph, styleRecognized p = false →
      (p.outline_attr = OutlineAttr.absent ∨ p.outline_attr = OutlineAttr.malformed) →
      calculate_outline_level p = 0) := by
  constructor
  · intro p h
    simp only [calculate_outline_level, h]
  · intro p hs hattr
    have hs' := hs
    simp only [styleRecognized, Bool.or_eq_false_iff] at hs'
    obtain ⟨⟨h1, h2⟩, h3⟩ := hs'
    simp only [calculate_outline_level, calcOutlineLevelExc, h1, h2, h3,
      Bool.false_eq_true, if_false]
    rcases hattr with h | h <;> simp [h]

/-- A paragraph with an unrecognized style and a malformed outline attribute
value, used to witness claim C8 at a concrete input. -/
def exMalformedPara : Paragraph := ⟨"Normal", OutlineAttr.malformed, "text"⟩

/-- Witness for claim C8 at the malformed-attribute paragraph. -/
theorem claim8_witness :
    (calcOutlineLevelExc exMalformedPara = Except.error () ∧
      calculate_outline_level exMalformedPara = 0) ∧
    (styleRecognized exMalformedPara = false ∧
      calculate_outline_level exMalformedPara = 0) :=
  ⟨⟨rfl, claim8_total_classification.1 exMalformedPara rfl⟩,
   ⟨by decide,
    claim8_total_classification.2 exMalformedPara (by decide) (Or.inr rfl)⟩⟩

/-- Every character of the compressed list is a space or came from the
input. -/
lemma mem_collapseSpaces : ∀ (l : List Char) (c : Char),
    c ∈ collapseSpaces l → c = ' ' ∨ c ∈ l := by
  intro l
  induction l with
  | nil => intro c h; simp [collapseSpaces] at h
  | cons c1 rest ih =>
      intro c h
      cases rest with
      | nil =>
          simp only [collapseSpaces] at h
          by_cases hs : pyIsSpace c1 = true
          · rw [if_pos hs] at h
            simp at h
            exact Or.inl h
          · rw [if_neg hs] at h
            simp at h
            exact Or.inr (by simp [h])
      | cons c2 rest2 =>
          simp only [collapseSpaces] at h
          by_cases hs : (pyIsSpace c1 && pyIsSpace c2) = true
          · rw [if_pos hs] at h
            rcases ih c h with h' | h'
            · exact Or.inl h'
            · exact Or.inr (List.mem_cons_of_mem _ h')
          · rw [if_neg hs] at h
            rcases List.mem_cons.mp h with h' | h'
            · by_cases hs1 : pyIsSpace c1 = true
              · rw [if_pos hs1] at h'
                exact Or.inl h'
              · rw [if_neg hs1] at h'
                exact Or.inr (h' ▸ List.mem_cons_self _ _)
            · rcases ih c h' with h'' | h''
              · exact Or.inl h''
              · exact Or.inr (List.mem_cons_of_mem _ h'')

/-- Every character of the stripped list came from the input. -/
lemma mem_trimChars {c : Char} {l : List Char} (h : c ∈ trimChars l) : c ∈ l := by
  unfold trimChars at h
  have h1 := List.mem_reverse.mp h
  have h2 := (List.dropWhile_sublist pyIsSpace).subset h1
  have h3 := List.mem_reverse.mp h2
  exact (List.dropWhile_sublist pyIsSpace).subset h3

/-- Claim C9: for every input string the sanitized filename contains no
path-illegal character and no control character, has at most 100
characters, and is never empty. -/
theorem claim9_sanitize (s : String) :
    (∀ c ∈ (sanitize_filename s).data, ¬ c ∈ invalidChars ∧ isCtrlChar c = false) ∧
    (sanitize_filename s).length ≤ 100 ∧ sanitize_filename s ≠ "" := by
  simp only [sanitize_filename]
  set s1 := s.data.map (fun c => if c ∈ ['　', '\t', '\n', '\r'] then ' ' else c) with hs1
  set s2 := s1.map (fun c => if c ∈ invalidChars then '_' else c) with hs2
  set s3 := s2.filter (fun c => !isCtrlChar c) with hs3
  set s4 := collapseSpaces s3 with hs4
  set s5 := trimChars s4 with hs5
  set s6 := if s5.isEmpty then "未命名章节".data else s5 with hs6
  have hgood : ∀ c ∈ s6, ¬ c ∈ invalidChars ∧ isCtrlChar c = false := by
    intro c hc
    rw [hs6] at hc
    by_cases he : s5.isEmpty = true
    · rw [if_pos he] at hc
      fin_cases hc <;> exact ⟨by decide, by decide⟩
    · rw [if_neg he] at hc
      have hc4 : c ∈ s4 := mem_trimChars hc
      rcases mem_collapseSpaces s3 c hc4 with hsp | hc3
      · subst hsp
        exact ⟨by decide, by decide⟩
      · obtain ⟨hc2, hctrl⟩ := List.mem_filter.mp hc3
        refine ⟨?_, by simpa using hctrl⟩
        obtain ⟨a, _, ha⟩ := List.mem_map.mp hc2
        by_cases hai : a ∈ invalidChars
        · rw [if_pos hai] at ha
          rw [← ha]
          decide
        · rw [if_neg hai] at ha
          rw [← ha]
          exact hai
  have hne : s6 ≠ [] := by
    rw [hs6]
    by_cases he : s5.isEmpty = true
    · rw [if_pos he]; decide
    · rw [if_neg he]
      simpa [List.isEmpty_iff] using he
  refine ⟨?_, ?_, ?_⟩
  · intro c hc
    exact hgood c (List.mem_of_mem_take hc)
  · rw [String.length_mk]
    calc (s6.take 100).length = min 100 s6.length := List.length_take 100 s6
    _ ≤ 100 := Nat.min_le_left _ _
  · intro hcon
    have hdata : s6.take 100 = [] := by
      have := congrArg String.data hcon
      simpa using this
    rcases List.take_eq_nil_iff.mp hdata with h | h
    · exact absurd h (by decide)
    · exact hne h

/-- Witness for claim C9 at a title full of path-illegal characters,
whitespace and control characters. -/
theorem claim9_witness :
    (∀ c ∈ (sanitize_filename "  <ti:tle>/bad\\name??*  \t ").data,
      ¬ c ∈ invalidChars ∧ isCtrlChar c = false) ∧
    (sanitize_filename "  <ti:tle>/bad\\name??*  \t ").length ≤ 100 ∧
    sanitize_filename "  <ti:tle>/bad\\name??*  \t " ≠ "" :=
  claim9_sanitize "  <ti:tle>/bad\\name??*  \t "

/-- Scanning one more heading folds one pathStep onto the state. -/
lemma pathAfter_concat (hs : List Heading) (h : Heading) :
    pathAfter (hs ++ [h]) = pathStep (pathAfter hs) h := by
  unfold pathAfter
  rw [List.foldl_concat]

/-- Indexing into a list extended by one element. -/
lemma getElem?_concat_cases (hs : List Heading) (x : Heading) (k : Nat) :
    (hs ++ [x])[k]? = if k < hs.length then hs[k]? else if k = hs.length then some x else none := by
  by_cases h1 : k < hs.length
  · rw [List.getElem?_append, if_pos h1, if_pos h1]
  · rw [if_neg h1]
    by_cases h2 : k = hs.length
    · rw [if_pos h2, h2]
      exact List.getElem?_concat_length hs x
    · rw [if_neg h2]
      have : (hs ++ [x]).length ≤ k := by
        simp only [List.length_append, List.length_cons, List.length_nil]
        omega
      exact List.getElem?_eq_none this

/-- Characterization of the current_levels state: level l maps to heading a
exactly when a occurs in the scanned prefix at level l and every strictly
later heading of the prefix has level strictly greater than l (a later
heading of equal level would have overwritten the entry, a later shallower
heading would have deleted it). -/
lemma pathAfter_some_iff : ∀ (hs : List Heading) (l : Nat) (a : Heading),
    pathAfter hs l = some a ↔
      (a.level = l ∧ ∃ j : Nat, hs[j]? = some a ∧
        ∀ (k : Nat) (b : Heading), j < k → hs[k]? = some b → l < b.level) := by
  intro hs
  induction hs using List.reverseRecOn with
  | nil =>
      intro l a
      constructor
      · intro h
        exact absurd h (by simp [pathAfter])
      · rintro ⟨_, j, hj, _⟩
        simp at hj
  | append_singleton hs x ih =>
      intro l a
      rw [pathAfter_concat]
      unfold pathStep
      by_cases hl : l = x.level
      · rw [if_pos hl]
        constructor
        · intro h
          have hax : a = x := by
            injection h with h
            exact h.symm
          subst hax
          refine ⟨hl.symm, hs.length, List.getElem?_concat_length hs a, ?_⟩
          intro k b hk hkb
          rw [getElem?_concat_cases] at hkb
          rw [if_neg (by omega), if_neg (by omega)] at hkb
          exact Option.noConfusion hkb
        · rintro ⟨hal, j, hj, hafter⟩
          by_cases hjl : j < hs.length
          · have hx := hafter hs.length x hjl (List.getElem?_concat_length hs x)
            omega
          · rw [getElem?_concat_cases, if_neg hjl] at hj
            by_cases hje : j = hs.length
            · rw [if_pos hje] at hj
              injection hj with hj
              rw [hj]
            · rw [if_neg hje] at hj
              exact Option.noConfusion hj
      · rw [if_neg hl]
        by_cases hx : x.level < l
        · rw [if_pos hx]
          constructor
          · intro h
            exact Option.noConfusion h
          · rintro ⟨hal, j, hj, hafter⟩
            exfalso
            by_cases hjl : j < hs.length
            · have := hafter hs.length x hjl (List.getElem?_concat_length hs x)
              omega
            · rw [getElem?_concat_cases, if_neg hjl] at hj
              by_cases hje : j = hs.length
              · rw [if_pos hje] at hj
                injection hj with hj
                exfalso
                rw [← hj] at hal
                omega
              · rw [if_neg hje] at hj
                exact Option.noConfusion hj
        · rw [if_neg hx]
          have hlt : l < x.level := by
            rcases Nat.lt_trichotomy l x.level with h | h | h
            · exact h
            · exact absurd h hl
            · exact absurd h hx
          rw [ih l a]
          constructor
          · rintro ⟨hal, j, hj, hafter⟩
            have hjl : j < hs.length := by
              obtain ⟨hb, _⟩ := List.getElem?_eq_some.mp hj
              exact hb
            refine ⟨hal, j, ?_, ?_⟩
            · rw [getElem?_concat_cases, if_pos hjl]
              exact hj
            · intro k b hk hkb
              rw [getElem?_concat_cases] at hkb
              by_cases hkl : k < hs.length
              · rw [if_pos hkl] at hkb
                exact hafter k b hk hkb
              · rw [if_neg hkl] at hkb
                by_cases hke : k = hs.length
                · rw [if_pos hke] at hkb
                  injection hkb with hkb
                  rw [← hkb]
                  exact hlt
                · rw [if_neg hke] at hkb
                  exact Option.noConfusion hkb
          · rintro ⟨hal, j, hj, hafter⟩
            rw [getElem?_concat_cases] at hj
            by_cases hjl : j < hs.length
            · rw [if_pos hjl] at hj
              refine ⟨hal, j, hj, ?_⟩
              intro k b hk hkb
              have hkl : k < hs.length := by
                obtain ⟨hb, _⟩ := List.getElem?_eq_some.mp hkb
                exact hb
              apply hafter k b hk
              rw [getElem?_concat_cases, if_pos hkl]
              exact hkb
            · rw [if_neg hjl] at hj
              by_cases hje : j = hs.length
              · rw [if_pos hje] at hj
                injection hj with hj
                exfalso
                rw [← hj] at hal
                omega
              · rw [if_neg hje] at hj
                exact Option.noConfusion hj

/-- Claim C7: immediately after the planner's scan processes a heading h of
level L, the current-path state maps L to h itself, maps every level above L
to nothing, and maps a level l to a heading exactly when that heading is the
ancestor-or-self of the last-seen heading at level l: it occurs in the
scanned prefix at level l with every later prefix heading strictly deeper
than l. -/
theorem claim7_current_path_invariant (pre : List Heading) (h : Heading) :
    pathAfter (pre ++ [h]) h.level = some h ∧
    (∀ l, h.level < l → pathAfter (pre ++ [h]) l = none) ∧
    (∀ l a, pathAfter (pre ++ [h]) l = some a ↔
      (a.level = l ∧ ∃ j : Nat, (pre ++ [h])[j]? = some a ∧
        ∀ (k : Nat) (b : Heading), j < k → (pre ++ [h])[k]? = some b → l < b.level)) := by
  refine ⟨?_, ?_, ?_⟩
  · rw [pathAfter_concat]
    unfold pathStep
    rw [if_pos rfl]
  · intro l hl
    rw [pathAfter_concat]
    unfold pathStep
    rw [if_neg (by omega), if_pos hl]
  · intro l a
    exact pathAfter_some_iff (pre ++ [h]) l a

/-- Witness for claim C7 after the scan [level 2, level 1, level 3]: the
state holds the level-1 and level-3 headings and nothing at level 2. -/
theorem claim7_witness :
    pathAfter ([⟨2, "x", 0⟩, ⟨1, "y", 1⟩] ++ [⟨3, "z", 2⟩]) (3 : Nat) = some ⟨3, "z", 2⟩ ∧
    (∀ l, 3 < l → pathAfter ([⟨2, "x", 0⟩, ⟨1, "y", 1⟩] ++ [⟨3, "z", 2⟩]) l = none) ∧
    (∀ l a, pathAfter ([⟨2, "x", 0⟩, ⟨1, "y", 1⟩] ++ [⟨3, "z", 2⟩]) l = some a ↔
      (a.level = l ∧ ∃ j : Nat, ([⟨2, "x", 0⟩, ⟨1, "y", 1⟩] ++ [⟨3, "z", 2⟩])[j]? = some a ∧
        ∀ (k : Nat) (b : Heading), j < k → ([⟨2, "x", 0⟩, ⟨1, "y", 1⟩] ++ [⟨3, "z", 2⟩])[k]? = some b → l < b.level)) :=
  claim7_current_path_invariant [⟨2, "x", 0⟩, ⟨1, "y", 1⟩] ⟨3, "z", 2⟩

/-- A non-empty string has non-empty character data. -/
lemma string_data_ne_nil {s : String} (h : s ≠ "") : s.data ≠ [] := by
  intro hd
  exact h (String.ext hd)

/-- Joining a non-empty list of non-empty strings yields a non-empty
string. -/
lemma joinSep_ne_empty (sep : String) :
    ∀ ts : List String, ts ≠ [] → (∀ t ∈ ts, t ≠ "") → joinSep sep ts ≠ "" := by
  intro ts
  match ts with
  | [] => intro h _; exact absurd rfl h
  | [t] =>
      intro _ hall
      simpa [joinSep] using hall t (by simp)
  | t :: t2 :: r =>
      intro _ hall
      simp only [joinSep]
      intro hcon
      have hd := congrArg String.data hcon
      rw [String.data_append, String.data_append] at hd
      have hnil : t.data = [] := by
        have := (List.append_eq_nil.mp hd).1
        exact (List.append_eq_nil.mp this).1
      exact string_data_ne_nil (hall t (by simp)) hnil

/-- Every entry of the scanned-prefix state is one of the scanned
headings. -/
lemma pathAfter_mem (l : List Heading) (lv : Nat) (a : Heading)
    (h : pathAfter l lv = some a) : a ∈ l := by
  rw [pathAfter_some_iff] at h
  obtain ⟨_, j, hj, _⟩ := h
  obtain ⟨hb, he⟩ := List.getElem?_eq_some.mp hj
  rw [← he]
  exact List.getElem_mem hb

/-- At the moment of emission the current-path state maps the emitting
heading's level to the emitting heading itself. -/
lemma emissionPath_self (hs : List Heading) (i : Nat) (h : Heading) :
    emissionPath hs i h h.level = some h := by
  unfold emissionPath pathStep
  rw [if_pos rfl]

/-- Every entry of the emission state is the emitting heading or one of the
headings before it. -/
lemma emissionPath_mem (hs : List Heading) (i : Nat) (h : Heading) (lv : Nat) (a : Heading)
    (ha : emissionPath hs i h lv = some a) : a = h ∨ a ∈ hs.take i := by
  unfold emissionPath pathStep at ha
  by_cases h1 : lv = h.level
  · rw [if_pos h1] at ha
    injection ha with ha
    exact Or.inl ha.symm
  · rw [if_neg h1] at ha
    by_cases h2 : h.level < lv
    · rw [if_pos h2] at ha
      exact Option.noConfusion ha
    · rw [if_neg h2] at ha
      exact Or.inr (pathAfter_mem _ lv a ha)

/-- Every chapter the planning loop emits is built, from the emission state
of some heading of the list, by mkChapter.  The invariant carried through
the loop is that the path argument is the fold of the scanned prefix. -/
lemma mem_planAux_emission (hs : List Heading) (mL : Nat) :
    ∀ (rem : List Heading) (i : Nat) (path : Nat → Option Heading),
      hs.drop i = rem → path = pathAfter (hs.take i) →
      ∀ ch ∈ planAux hs mL rem i path,
        ∃ (j : Nat) (h : Heading),
          hs[j]? = some h ∧ ch = mkChapter (emissionPath hs j h) h := by
  intro rem
  induction rem with
  | nil =>
      intro i path _ _ ch hch
      simp [planAux] at hch
  | cons h rest ih =>
      intro i path hdrop hpath ch hch
      have hgi : hs[i]? = some h := by
        have h0 : (hs.drop i)[0]? = some h := by
          rw [hdrop]
          exact List.getElem?_cons_zero
        rw [List.getElem?_drop] at h0
        simpa using h0
      have hpath' : pathStep path h = pathAfter (hs.take (i + 1)) := by
        rw [List.take_succ, hgi, Option.toList_some, pathAfter_concat, hpath]
      have hdrop' : hs.drop (i + 1) = rest := by
        rw [← List.tail_drop, hdrop]
        rfl
      simp only [planAux] at hch
      by_cases hc : should_create_chapter_at_position hs i h.level mL = true
      · rw [if_pos hc] at hch
        rcases List.mem_cons.mp hch with hch | hch
        · refine ⟨i, h, hgi, ?_⟩
          rw [hch, hpath]
          rfl
        · exact ih (i + 1) (pathStep path h) hdrop' hpath' ch hch
      · rw [if_neg hc] at hch
        exact ih (i + 1) (pathStep path h) hdrop' hpath' ch hch

/-- Claim C10: every chapter the planner emits is built at some heading h of
the list, whose emission-time current-path state holds h itself at level
h.level; the titles list of _build_chapter_title at that state is non-empty
(so the placeholder fallback branch is not taken), contains h's own title,
consists of non-empty heading titles only (given the extraction guarantee of
non-empty titles), and the chapter's title is its non-empty join. -/
theorem claim10_fallback_unreachable (hs : List Heading) (min_level : Nat)
    (hT : ∀ h ∈ hs, h.title ≠ "") :
    ∀ ch ∈ planChapters hs min_level,
      ∃ (i : Nat) (h : Heading),
        hs[i]? = some h ∧
        ch = mkChapter (emissionPath hs i h) h ∧
        emissionPath hs i h h.level = some h ∧
        titleParts (emissionPath hs i h) h.level ≠ [] ∧
        h.title ∈ titleParts (emissionPath hs i h) h.level ∧
        (∀ t ∈ titleParts (emissionPath hs i h) h.level, t ≠ "") ∧
        ch.title = joinSep " - " (titleParts (emissionPath hs i h) h.level) ∧
        ch.title ≠ "" := by
  intro ch hch
  obtain ⟨i, h, hgi, hcheq⟩ := mem_planAux_emission hs min_level hs 0 (fun _ => none)
    (List.drop_zero hs) rfl ch hch
  have hself : emissionPath hs i h h.level = some h := emissionPath_self hs i h
  have hmemh : h ∈ hs := by
    obtain ⟨hb, he⟩ := List.getElem?_eq_some.mp hgi
    rw [← he]
    exact List.getElem_mem hb
  have htmem : h.title ∈ titleParts (emissionPath hs i h) h.level := by
    apply List.mem_filterMap.mpr
    refine ⟨h.level, List.mem_range.mpr (by omega), ?_⟩
    rw [hself]
    rfl
  have hne : titleParts (emissionPath hs i h) h.level ≠ [] := by
    intro h0
    rw [h0] at htmem
    exact absurd htmem (List.not_mem_nil _)
  have hall : ∀ t ∈ titleParts (emissionPath hs i h) h.level, t ≠ "" := by
    intro t ht
    obtain ⟨l, _, hmap⟩ := List.mem_filterMap.mp ht
    cases hps : emissionPath hs i h l with
    | none =>
        rw [hps] at hmap
        exact Option.noConfusion hmap
    | some a =>
        rw [hps] at hmap
        injection hmap with hmap
        rw [← hmap]
        rcases emissionPath_mem hs i h l a hps with ha | ha
        · rw [ha]
          exact hT h hmemh
        · exact hT a (List.mem_of_mem_take ha)
  have htitle : ch.title = joinSep " - " (titleParts (emissionPath hs i h) h.level) := by
    rw [hcheq]
    show build_chapter_title (emissionPath hs i h) h.level = _
    unfold build_chapter_title
    rw [if_neg (fun he => hne (List.isEmpty_iff.mp he))]
  refine ⟨i, h, hgi, hcheq, hself, hne, htmem, hall, htitle, ?_⟩
  rw [htitle]
  exact joinSep_ne_empty " - " _ hne hall

/-- Witness for claim C10 on the adaptive-depth example document. -/
theorem claim10_witness :
    (∀ h ∈ exHeadings, h.title ≠ "") ∧
    (∀ ch ∈ planChapters exHeadings 5,
      ∃ (i : Nat) (h : Heading),
        exHeadings[i]? = some h ∧
        ch = mkChapter (emissionPath exHeadings i h) h ∧
        emissionPath exHeadings i h h.level = some h ∧
        titleParts (emissionPath exHeadings i h) h.level ≠ [] ∧
        h.title ∈ titleParts (emissionPath exHeadings i h) h.level ∧
        (∀ t ∈ titleParts (emissionPath exHeadings i h) h.level, t ≠ "") ∧
        ch.title = joinSep " - " (titleParts (emissionPath exHeadings i h) h.level) ∧
        ch.title ≠ "") :=
  ⟨by decide, claim10_fallback_unreachable exHeadings 5 (by decide)⟩

/-- A left fold of max never goes below its seed. -/
lemma le_foldl_max : ∀ (l : List Nat) (m : Nat), m ≤ l.foldl max m := by
  intro l
  induction l with
  | nil => intro m; exact Nat.le_refl m
  | cons a t ih =>
      intro m
      calc m ≤ max m a := Nat.le_max_left m a
      _ ≤ (a :: t).foldl max m := ih (max m a)

/-- The conditional max fold equals the max fold of the filtered levels. -/
lemma foldl_if_filter (q : Nat × Heading → Bool) :
    ∀ (l : List (Nat × Heading)) (m : Nat),
      l.foldl (fun acc pr => if q pr then max acc pr.2.level else acc) m =
        ((l.filter q).map (fun pr => pr.2.level)).foldl max m := by
  intro l
  induction l with
  | nil => intro m; rfl
  | cons pr t ih =>
      intro m
      by_cases hq : q pr = true
      · simp only [List.foldl_cons, List.filter_cons, hq, if_pos, List.map_cons]
        exact ih (max m pr.2.level)
      · simp only [List.foldl_cons, List.filter_cons, hq, Bool.false_eq_true, if_false]
        exact ih m

/-- The element right after the longest satisfying prefix fails the
predicate. -/
lemma head?_dropWhile_not {α : Type} (p : α → Bool) :
    ∀ (l : List α) (x : α), (l.dropWhile p).head? = some x → p x = false := by
  intro l
  induction l with
  | nil => intro x h; exact Option.noConfusion h
  | cons a t ih =>
      intro x h
      rw [List.dropWhile_cons] at h
      by_cases hp : p a = true
      · rw [if_pos hp] at h
        exact ih x h
      · rw [if_neg hp] at h
        injection h with h
        rw [← h]
        exact Bool.eq_false_iff.mpr hp

/-- Claim C6: the branch-depth analysis splits the headings after index i
into the scanned block (every heading of level strictly above L, stopping
right before the first later heading of level at most L) and the rest; its
result is the maximum of L (the level of heading i) and the levels of the
scanned headings that belong to heading i's branch, and is in particular at
least L. -/
theorem claim6_branch_scan (hs : List Heading) (i L : Nat) (h : Heading)
    (hget : hs[i]? = some h) (hL : h.level = L) :
    ∃ scanned rest : List (Nat × Heading),
      hs.enum.drop (i + 1) = scanned ++ rest ∧
      (∀ pr ∈ scanned, L < pr.2.level) ∧
      (∀ pr, rest.head? = some pr → pr.2.level ≤ L) ∧
      get_branch_max_level hs i L =
        ((scanned.filter (fun pr =>
            belongs_to_current_branch hs pr.1 (pathUpTo hs (i + 1) L) L)).map
          (fun pr => pr.2.level)).foldl max L ∧
      L ≤ get_branch_max_level hs i L := by
  refine ⟨(hs.enum.drop (i + 1)).takeWhile (fun pr => decide (L < pr.2.level)),
    (hs.enum.drop (i + 1)).dropWhile (fun pr => decide (L < pr.2.level)),
    (List.takeWhile_append_dropWhile _ _).symm, ?_, ?_, ?_, ?_⟩
  · intro pr hpr
    have := List.mem_takeWhile_imp hpr
    simpa using this
  · intro pr hpr
    have := head?_dropWhile_not _ _ pr hpr
    simp at this
    omega
  · unfold get_branch_max_level
    exact foldl_if_filter _ _ L
  · unfold get_branch_max_level
    rw [foldl_if_filter]
    exact le_foldl_max _ L

/-- Witness for claim C6 at heading B (index 2, level 1) of the
adaptive-depth example document. -/
theorem claim6_witness :
    exHeadings[2]? = some ⟨1, "B", 2⟩ ∧
    (∃ scanned rest : List (Nat × Heading),
      exHeadings.enum.drop 3 = scanned ++ rest ∧
      (∀ pr ∈ scanned, 1 < pr.2.level) ∧
      (∀ pr, rest.head? = some pr → pr.2.level ≤ 1) ∧
      get_branch_max_level exHeadings 2 1 =
        ((scanned.filter (fun pr =>
            belongs_to_current_branch exHeadings pr.1 (pathUpTo exHeadings 3 1) 1)).map
          (fun pr => pr.2.level)).foldl max 1 ∧
      1 ≤ get_branch_max_level exHeadings 2 1) :=
  ⟨by decide, claim6_branch_scan exHeadings 2 1 ⟨1, "B", 2⟩ (by decide) rfl⟩

/-- Boundary resolution keeps the number of chapters. -/
lemma set_chapter_boundaries_length (total : Nat) (heads : List Heading) :
    ∀ chapters : List ChapterInfo,
      (set_chapter_boundaries total heads chapters).length = chapters.length := by
  intro chapters
  induction chapters with
  | nil => rfl
  | cons a t ih =>
      cases t with
      | nil => rfl
      | cons b t2 =>
          simp only [set_chapter_boundaries, List.length_cons]
          simp only [set_chapter_boundaries, List.length_cons] at ih
          omega

/-- Pointwise description of boundary resolution: chapter k is resolved
against chapter k+1 when it exists, and against the paragraph count when it
does not. -/
lemma set_chapter_boundaries_getElem? (total : Nat) (heads : List Heading) :
    ∀ (chapters : List ChapterInfo) (k : Nat) (ch : ChapterInfo),
      chapters[k]? = some ch →
      (set_chapter_boundaries total heads chapters)[k]? =
        some (match chapters[k + 1]? with
          | some next => finishMid heads ch next
          | none => finishLast total ch) := by
  intro chapters
  induction chapters with
  | nil => intro k ch h; exact Option.noConfusion h
  | cons a t ih =>
      intro k ch h
      cases t with
      | nil =>
          cases k with
          | zero =>
              rw [List.getElem?_cons_zero] at h
              injection h with h
              subst h
              rfl
          | succ k2 =>
              rw [List.getElem?_cons_succ] at h
              simp at h
      | cons b t2 =>
          cases k with
          | zero =>
              rw [List.getElem?_cons_zero] at h
              injection h with h
              subst h
              simp [set_chapter_boundaries]
          | succ k2 =>
              rw [List.getElem?_cons_succ] at h
              have hres := ih k2 ch h
              simp only [set_chapter_boundaries]
              rw [List.getElem?_cons_succ, List.getElem?_cons_succ]
              exact hres

/-- On a list sorted strictly by position, find? returns the element of
minimal position among those satisfying the predicate. -/
lemma find?_eq_of_sorted_min (P : Heading → Bool) :
    ∀ heads : List Heading,
      heads.Pairwise (fun a b => a.paragraph_index < b.paragraph_index) →
      ∀ hd, hd ∈ heads → P hd = true →
        (∀ hd2 ∈ heads, P hd2 = true → hd.paragraph_index ≤ hd2.paragraph_index) →
        heads.find? P = some hd := by
  intro heads
  induction heads with
  | nil => intro _ hd hmem; exact absurd hmem (List.not_mem_nil hd)
  | cons a t ih =>
      intro hpw hd hmem hP hmin
      rw [List.find?_cons]
      by_cases hpa : P a = true
      · rw [hpa]
        rcases List.mem_cons.mp hmem with rfl | hmem'
        · rfl
        · exfalso
          have h1 : a.paragraph_index < hd.paragraph_index :=
            (List.pairwise_cons.mp hpw).1 hd hmem'
          have h2 := hmin a (List.mem_cons_self a t) hpa
          omega
      · rw [Bool.eq_false_iff.mpr hpa]
        rcases List.mem_cons.mp hmem with rfl | hmem'
        · exact absurd hP hpa
        · exact ih (List.Pairwise.of_cons hpw) hd hmem' hP
            (fun hd2 hm2 hp2 => hmin hd2 (List.mem_cons_of_mem a hm2) hp2)

/-- Contiguous Nat range membership between two endpoints. -/
lemma mem_range'_iff_le {s e : Nat} (hse : s ≤ e) (p : Nat) :
    p ∈ List.range' s (e + 1 - s) ↔ (s ≤ p ∧ p ≤ e) := by
  rw [List.mem_range'_1]
  omega

/-- The resolved end of a non-last chapter. -/
lemma finishMid_end (heads : List Heading) (ch next : ChapterInfo) :
    (finishMid heads ch next).end_paragraph =
      max ch.start_paragraph
        (match heads.find? (fun hd => decide (orphanBetween ch next hd)) with
         | some hd => hd.paragraph_index - 1
         | none => next.start_paragraph - 1) := rfl

/-- The paragraphs field of a resolved non-last chapter is the contiguous
range from start to end. -/
lemma finishMid_paragraphs (heads : List Heading) (ch next : ChapterInfo) :
    (finishMid heads ch next).paragraphs =
      List.range' ch.start_paragraph
        ((finishMid heads ch next).end_paragraph + 1 - ch.start_paragraph) := rfl

/-- The paragraphs field of the resolved last chapter is the contiguous
range from start to end. -/
lemma finishLast_paragraphs (total : Nat) (ch : ChapterInfo) :
    (finishLast total ch).paragraphs =
      List.range' ch.start_paragraph
        ((finishLast total ch).end_paragraph + 1 - ch.start_paragraph) := rfl

/-- Claim C3: after boundary resolution, every non-last chapter ends right
before the next chapter's start, unless a heading of level at most the
chapter's own lies strictly between the two starts, in which case it ends
right before the first (lowest-positioned) such heading; the last chapter
ends at the last paragraph; every chapter's end is at least its start; and
every chapter's paragraphs field is exactly the integer range from start to
end.  The hypotheses state that the input is what the planner hands over: a
chapter list with strictly increasing starts below the paragraph count, and
the document's headings sorted by position. -/
theorem claim3_boundary_resolution (chapters : List ChapterInfo) (total : Nat)
    (heads : List Heading)
    (hmono : chapters.Pairwise (fun a b => a.start_paragraph < b.start_paragraph))
    (hlt : ∀ ch ∈ chapters, ch.start_paragraph < total)
    (hsort : heads.Pairwise (fun a b => a.paragraph_index < b.paragraph_index)) :
    (∀ (k : Nat) (ch next : ChapterInfo),
      chapters[k]? = some ch → chapters[k + 1]? = some next →
      ∃ och : ChapterInfo,
        (set_chapter_boundaries total heads chapters)[k]? = some och ∧
        och.start_paragraph = ch.start_paragraph ∧ och.level = ch.level ∧
        ((∀ hd ∈ heads, ¬ orphanBetween ch next hd) →
          och.end_paragraph = next.start_paragraph - 1) ∧
        (∀ hd ∈ heads, orphanBetween ch next hd →
          (∀ hd2 ∈ heads, orphanBetween ch next hd2 →
            hd.paragraph_index ≤ hd2.paragraph_index) →
          och.end_paragraph = hd.paragraph_index - 1)) ∧
    (∀ lch : ChapterInfo, chapters.getLast? = some lch →
      ∃ olch : ChapterInfo,
        (set_chapter_boundaries total heads chapters).getLast? = some olch ∧
        olch.start_paragraph = lch.start_paragraph ∧
        olch.end_paragraph = total - 1) ∧
    (∀ och ∈ set_chapter_boundaries total heads chapters,
      och.start_paragraph ≤ och.end_paragraph ∧
      och.paragraphs =
        List.range' och.start_paragraph (och.end_paragraph + 1 - och.start_paragraph) ∧
      (∀ p : Nat, p ∈ och.paragraphs ↔
        (och.start_paragraph ≤ p ∧ p ≤ och.end_paragraph))) := by
  have hstartlt : ∀ (k : Nat) (ch next : ChapterInfo),
      chapters[k]? = some ch → chapters[k + 1]? = some next →
      ch.start_paragraph < next.start_paragraph := by
    intro k ch next hk hk1
    obtain ⟨hbk, hek⟩ := List.getElem?_eq_some.mp hk
    obtain ⟨hbk1, hek1⟩ := List.getElem?_eq_some.mp hk1
    have := List.pairwise_iff_getElem.mp hmono k (k + 1) hbk hbk1 (by omega)
    rw [hek, hek1] at this
    exact this
  refine ⟨?_, ?_, ?_⟩
  · intro k ch next hk hk1
    have hout := set_chapter_boundaries_getElem? total heads chapters k ch hk
    rw [hk1] at hout
    refine ⟨finishMid heads ch next, hout, rfl, rfl, ?_, ?_⟩
    · intro hno
      have hfind : heads.find? (fun hd => decide (orphanBetween ch next hd)) = none := by
        rw [List.find?_eq_none]
        intro x hx
        simp only [decide_eq_true_eq]
        exact hno x hx
      rw [finishMid_end, hfind]
      have hlt2 := hstartlt k ch next hk hk1
      show max ch.start_paragraph (next.start_paragraph - 1) = next.start_paragraph - 1
      exact Nat.max_eq_right (by omega)
    · intro hd hmem horph hmin
      have hfind : heads.find? (fun hd => decide (orphanBetween ch next hd)) = some hd := by
        apply find?_eq_of_sorted_min _ heads hsort hd hmem
          (by simpa using horph)
        intro hd2 hm2 hp2
        exact hmin hd2 hm2 (by simpa using hp2)
      rw [finishMid_end, hfind]
      obtain ⟨h1, h2, h3⟩ := horph
      show max ch.start_paragraph (hd.paragraph_index - 1) = hd.paragraph_index - 1
      exact Nat.max_eq_right (by omega)
  · intro lch hlast
    rw [List.getLast?_eq_getElem?] at hlast
    have hlen : chapters.length ≠ 0 := by
      intro h0
      rw [List.length_eq_zero] at h0
      rw [h0] at hlast
      simp at hlast
    have hk1 : chapters[(chapters.length - 1) + 1]? = none := by
      apply List.getElem?_eq_none
      omega
    have hout := set_chapter_boundaries_getElem? total heads chapters
      (chapters.length - 1) lch hlast
    rw [hk1] at hout
    refine ⟨finishLast total lch, ?_, rfl, rfl⟩
    rw [List.getLast?_eq_getElem?, set_chapter_boundaries_length]
    exact hout
  · intro och hmem
    obtain ⟨k, hk⟩ := List.mem_iff_getElem?.mp hmem
    have hklen : k < chapters.length := by
      obtain ⟨hb, _⟩ := List.getElem?_eq_some.mp hk
      rw [set_chapter_boundaries_length] at hb
      exact hb
    obtain ⟨ch, hch⟩ : ∃ ch : ChapterInfo, chapters[k]? = some ch := by
      rw [List.getElem?_eq_getElem hklen]
      exact ⟨chapters[k], rfl⟩
    have hchmem : ch ∈ chapters := by
      obtain ⟨hb, he⟩ := List.getElem?_eq_some.mp hch
      rw [← he]
      exact List.getElem_mem hb
    cases hk1 : chapters[k + 1]? with
    | some next =>
        have hout := set_chapter_boundaries_getElem? total heads chapters k ch hch
        rw [hk1, hk] at hout
        have hout2 : och = finishMid heads ch next := by
          simpa using hout
        subst hout2
        have hse : ch.start_paragraph ≤ (finishMid heads ch next).end_paragraph := by
          rw [finishMid_end]
          exact Nat.le_max_left _ _
        refine ⟨hse, finishMid_paragraphs heads ch next, ?_⟩
        intro p
        rw [finishMid_paragraphs]
        exact mem_range'_iff_le hse p
    | none =>
        have hout := set_chapter_boundaries_getElem? total heads chapters k ch hch
        rw [hk1, hk] at hout
        have hout2 : och = finishLast total ch := by
          simpa using hout
        subst hout2
        have hse : ch.start_paragraph ≤ (finishLast total ch).end_paragraph := by
          have := hlt ch hchmem
          show ch.start_paragraph ≤ total - 1
          omega
        refine ⟨hse, finishLast_paragraphs total ch, ?_⟩
        intro p
        rw [finishLast_paragraphs]
        exact mem_range'_iff_le hse p

/-- Consecutive chapters of a start-sorted list have increasing starts. -/
lemma pairwise_start_consecutive {chapters : List ChapterInfo}
    (hmono : chapters.Pairwise (fun a b => a.start_paragraph < b.start_paragraph))
    {k : Nat} {ch next : ChapterInfo}
    (hk : chapters[k]? = some ch) (hk1 : chapters[k + 1]? = some next) :
    ch.start_paragraph < next.start_paragraph := by
  obtain ⟨hbk, hek⟩ := List.getElem?_eq_some.mp hk
  obtain ⟨hbk1, hek1⟩ := List.getElem?_eq_some.mp hk1
  have := List.pairwise_iff_getElem.mp hmono k (k + 1) hbk hbk1 (by omega)
  rw [hek, hek1] at this
  exact this

/-- Boundary resolution does not change the chapter starts. -/
lemma set_boundaries_map_start (total : Nat) (heads : List Heading) :
    ∀ chapters : List ChapterInfo,
      (set_chapter_boundaries total heads chapters).map (fun c => c.start_paragraph) =
        chapters.map (fun c => c.start_paragraph) := by
  intro chapters
  induction chapters with
  | nil => rfl
  | cons a t ih =>
      cases t with
      | nil => rfl
      | cons b t2 =>
          simp only [set_chapter_boundaries, List.map_cons] at ih ⊢
          rw [ih]
          rfl

/-- Every resolved chapter's paragraphs field is the contiguous range from
its start to its end. -/
lemma set_boundaries_paragraphs (total : Nat) (heads : List Heading)
    (chapters : List ChapterInfo) :
    ∀ och ∈ set_chapter_boundaries total heads chapters,
      och.paragraphs =
        List.range' och.start_paragraph (och.end_paragraph + 1 - och.start_paragraph) := by
  intro och hmem
  obtain ⟨k, hk⟩ := List.mem_iff_getElem?.mp hmem
  have hklen : k < chapters.length := by
    obtain ⟨hb, _⟩ := List.getElem?_eq_some.mp hk
    rw [set_chapter_boundaries_length] at hb
    exact hb
  obtain ⟨ch, hch⟩ : ∃ ch : ChapterInfo, chapters[k]? = some ch := by
    rw [List.getElem?_eq_getElem hklen]
    exact ⟨chapters[k], rfl⟩
  have hout := set_chapter_boundaries_getElem? total heads chapters k ch hch
  rw [hk] at hout
  cases hk1 : chapters[k + 1]? with
  | some next =>
      rw [hk1] at hout
      have h2 : och = finishMid heads ch next := by simpa using hout
      rw [h2]
      exact finishMid_paragraphs heads ch next
  | none =>
      rw [hk1] at hout
      have h2 : och = finishLast total ch := by simpa using hout
      rw [h2]
      exact finishLast_paragraphs total ch

/-- A resolved non-last chapter always ends strictly before the next
chapter's start (whether or not the orphan clamp fired). -/
lemma set_boundaries_end_lt (total : Nat) (heads : List Heading)
    (chapters : List ChapterInfo)
    (hmono : chapters.Pairwise (fun a b => a.start_paragraph < b.start_paragraph)) :
    ∀ (k : Nat) (a b : ChapterInfo),
      (set_chapter_boundaries total heads chapters)[k]? = some a →
      (set_chapter_boundaries total heads chapters)[k + 1]? = some b →
      a.end_paragraph < b.start_paragraph := by
  intro k a b hka hkb
  have hk1lt : k + 1 < chapters.length := by
    obtain ⟨hb, _⟩ := List.getElem?_eq_some.mp hkb
    rw [set_chapter_boundaries_length] at hb
    exact hb
  obtain ⟨ch, hch⟩ : ∃ ch : ChapterInfo, chapters[k]? = some ch := by
    rw [List.getElem?_eq_getElem (by omega : k < chapters.length)]
    exact ⟨chapters[k], rfl⟩
  obtain ⟨next, hnext⟩ : ∃ next : ChapterInfo, chapters[k + 1]? = some next := by
    rw [List.getElem?_eq_getElem hk1lt]
    exact ⟨chapters[k + 1], rfl⟩
  have houta := set_chapter_boundaries_getElem? total heads chapters k ch hch
  rw [hnext, hka] at houta
  have ha : a = finishMid heads ch next := by simpa using houta
  have houtb := set_chapter_boundaries_getElem? total heads chapters (k + 1) next hnext
  rw [hkb] at houtb
  have hbstart : b.start_paragraph = next.start_paragraph := by
    cases hk2 : chapters[k + 1 + 1]? with
    | some n2 =>
        rw [hk2] at houtb
        have hb2 : b = finishMid heads next n2 := by simpa using houtb
        rw [hb2]
        rfl
    | none =>
        rw [hk2] at houtb
        have hb2 : b = finishLast total next := by simpa using houtb
        rw [hb2]
        rfl
  have hlt2 : ch.start_paragraph < next.start_paragraph :=
    pairwise_start_consecutive hmono hch hnext
  rw [ha, hbstart, finishMid_end]
  cases hfind : heads.find? (fun hd => decide (orphanBetween ch next hd)) with
  | some hd =>
      have hP := List.find?_some hfind
      simp only [decide_eq_true_eq] at hP
      obtain ⟨hp1, hp2, _⟩ := hP
      show max ch.start_paragraph (hd.paragraph_index - 1) < next.start_paragraph
      rw [Nat.max_lt]
      exact ⟨hlt2, by omega⟩
  | none =>
      show max ch.start_paragraph (next.start_paragraph - 1) < next.start_paragraph
      rw [Nat.max_lt]
      exact ⟨hlt2, by omega⟩

/-- The starts of the chapters the planning loop emits are, in order, a
sublist of the positions of the headings it scans. -/
lemma planAux_starts_sublist (hs : List Heading) (mL : Nat) :
    ∀ (rem : List Heading) (i : Nat) (path : Nat → Option Heading),
      ((planAux hs mL rem i path).map (fun c => c.start_paragraph)).Sublist
        (rem.map (fun h => h.paragraph_index)) := by
  intro rem
  induction rem with
  | nil => intro i path; simp [planAux]
  | cons h rest ih =>
      intro i path
      simp only [planAux, List.map_cons]
      by_cases hc : should_create_chapter_at_position hs i h.level mL = true
      · rw [if_pos hc]
        simp only [List.map_cons]
        exact List.Sublist.cons₂ _ (ih (i + 1) (pathStep path h))
      · rw [if_neg hc]
        exact List.Sublist.cons _ (ih (i + 1) (pathStep path h))

/-- When heading positions strictly increase, chapter starts strictly
increase. -/
lemma planChapters_start_pairwise (hs : List Heading) (mL : Nat)
    (hsort : hs.Pairwise (fun a b => a.paragraph_index < b.paragraph_index)) :
    (planChapters hs mL).Pairwise (fun a b => a.start_paragraph < b.start_paragraph) := by
  have hsub := planAux_starts_sublist hs mL hs 0 (fun _ => none)
  have hpw : (hs.map (fun h => h.paragraph_index)).Pairwise (fun a b => a < b) :=
    List.pairwise_map.mpr hsort
  have := List.Pairwise.sublist hsub hpw
  exact List.pairwise_map.mp this

/-- Every chapter start is the position of one of the headings. -/
lemma planChapters_start_mem (hs : List Heading) (mL : Nat) :
    ∀ ch ∈ planChapters hs mL, ∃ h ∈ hs, ch.start_paragraph = h.paragraph_index := by
  intro ch hch
  have hsub := planAux_starts_sublist hs mL hs 0 (fun _ => none)
  have hm : ch.start_paragraph ∈ (planChapters hs mL).map (fun c => c.start_paragraph) :=
    List.mem_map_of_mem _ hch
  have hm2 := hsub.subset hm
  obtain ⟨h, hmem, he⟩ := List.mem_map.mp hm2
  exact ⟨h, hmem, he.symm⟩

/-- Coverage with gaps: every paragraph from the first chapter's start to
the end of the document lies in some resolved chapter or strictly between
one resolved chapter's end and the next one's start. -/
lemma coverage_aux (total : Nat) (heads : List Heading) :
    ∀ chapters : List ChapterInfo,
      (∀ ch ∈ chapters, ch.start_paragraph < total) →
      ∀ (p : Nat) (c0 : ChapterInfo), p < total → chapters.head? = some c0 →
        c0.start_paragraph ≤ p →
      (∃ c ∈ set_chapter_boundaries total heads chapters, p ∈ c.paragraphs) ∨
      (∃ k : Nat, ∃ a b : ChapterInfo,
        (set_chapter_boundaries total heads chapters)[k]? = some a ∧
        (set_chapter_boundaries total heads chapters)[k + 1]? = some b ∧
        a.end_paragraph < p ∧ p < b.start_paragraph) := by
  intro chapters
  induction chapters with
  | nil =>
      intro _ p c0 _ hhead _
      exact Option.noConfusion hhead
  | cons ch t ih =>
      intro hlt p c0 hp hhead hc0
      injection hhead with hhead
      subst hhead
      cases t with
      | nil =>
          left
          refine ⟨finishLast total ch, List.mem_cons_self _ _, ?_⟩
          have hse : ch.start_paragraph ≤ (finishLast total ch).end_paragraph := by
            have := hlt ch (List.mem_cons_self _ _)
            show ch.start_paragraph ≤ total - 1
            omega
          rw [finishLast_paragraphs]
          rw [mem_range'_iff_le hse p]
          refine ⟨hc0, ?_⟩
          show p ≤ total - 1
          omega
      | cons next t2 =>
          by_cases hpe : p ≤ (finishMid heads ch next).end_paragraph
          · left
            refine ⟨finishMid heads ch next, List.mem_cons_self _ _, ?_⟩
            have hse : ch.start_paragraph ≤ (finishMid heads ch next).end_paragraph := by
              rw [finishMid_end]
              exact Nat.le_max_left _ _
            rw [finishMid_paragraphs]
            rw [mem_range'_iff_le hse p]
            exact ⟨hc0, hpe⟩
          · by_cases hpn : p < next.start_paragraph
            · right
              refine ⟨0, finishMid heads ch next, ?_⟩
              cases t2 with
              | nil =>
                  refine ⟨finishLast total next, rfl, ?_, by omega, hpn⟩
                  show (finishMid heads ch next ::
                      set_chapter_boundaries total heads [next])[0 + 1]? =
                    some (finishLast total next)
                  rw [List.getElem?_cons_succ]
                  rfl
              | cons n2 t3 =>
                  refine ⟨finishMid heads next n2, rfl, ?_, by omega, hpn⟩
                  show (finishMid heads ch next ::
                      set_chapter_boundaries total heads (next :: n2 :: t3))[0 + 1]? =
                    some (finishMid heads next n2)
                  rw [List.getElem?_cons_succ]
                  simp [set_chapter_boundaries]
            · have hnext : next.start_paragraph ≤ p := by omega
              have hlt' : ∀ c ∈ next :: t2, c.start_paragraph < total :=
                fun c hc => hlt c (List.mem_cons_of_mem _ hc)
              rcases ih hlt' p next hp rfl hnext with hres | hres
              · left
                obtain ⟨c, hcm, hcp⟩ := hres
                exact ⟨c, List.mem_cons_of_mem _ hcm, hcp⟩
              · right
                obtain ⟨k, a, b, hka, hkb, hae, hbs⟩ := hres
                refine ⟨k + 1, a, b, ?_, ?_, hae, hbs⟩
                · show (finishMid heads ch next ::
                      set_chapter_boundaries total heads (next :: t2))[k + 1]? = some a
                  rw [List.getElem?_cons_succ]
                  exact hka
                · show (finishMid heads ch next ::
                      set_chapter_boundaries total heads (next :: t2))[k + 1 + 1]? = some b
                  rw [List.getElem?_cons_succ]
                  exact hkb

/-- Witness for claim C3 on the clamped document: applying the theorem to
the planner's chapters over cHeads and projecting the non-last case at
chapter 0, whose end is clamped by the orphan heading at paragraph 3. -/
theorem claim3_witness :
    ([⟨"A - A1 - A11", 3, 2, 2, [2]⟩, ⟨"B - B1", 2, 4, 4, [4]⟩,
      ⟨"B - B2", 2, 5, 5, [5]⟩] : List ChapterInfo).Pairwise
        (fun a b => a.start_paragraph < b.start_paragraph) ∧
    (∀ ch ∈ ([⟨"A - A1 - A11", 3, 2, 2, [2]⟩, ⟨"B - B1", 2, 4, 4, [4]⟩,
      ⟨"B - B2", 2, 5, 5, [5]⟩] : List ChapterInfo), ch.start_paragraph < 6) ∧
    cHeads.Pairwise (fun a b => a.paragraph_index < b.paragraph_index) ∧
    (∃ och : ChapterInfo,
      (set_chapter_boundaries 6 cHeads
        [⟨"A - A1 - A11", 3, 2, 2, [2]⟩, ⟨"B - B1", 2, 4, 4, [4]⟩,
         ⟨"B - B2", 2, 5, 5, [5]⟩])[0]? = some och ∧
      och.start_paragraph = 2 ∧ och.level = 3 ∧
      ((∀ hd ∈ cHeads,
        ¬ orphanBetween ⟨"A - A1 - A11", 3, 2, 2, [2]⟩ ⟨"B - B1", 2, 4, 4, [4]⟩ hd) →
        och.end_paragraph = 4 - 1) ∧
      (∀ hd ∈ cHeads,
        orphanBetween ⟨"A - A1 - A11", 3, 2, 2, [2]⟩ ⟨"B - B1", 2, 4, 4, [4]⟩ hd →
        (∀ hd2 ∈ cHeads,
          orphanBetween ⟨"A - A1 - A11", 3, 2, 2, [2]⟩ ⟨"B - B1", 2, 4, 4, [4]⟩ hd2 →
          hd.paragraph_index ≤ hd2.paragraph_index) →
        och.end_paragraph = hd.paragraph_index - 1)) :=
  ⟨by decide, by decide, by decide,
   (claim3_boundary_resolution
      [⟨"A - A1 - A11", 3, 2, 2, [2]⟩, ⟨"B - B1", 2, 4, 4, [4]⟩, ⟨"B - B2", 2, 5, 5, [5]⟩]
      6 cHeads (by decide) (by decide) (by decide)).1
    0 ⟨"A - A1 - A11", 3, 2, 2, [2]⟩ ⟨"B - B1", 2, 4, 4, [4]⟩ (by decide) (by decide)⟩

/-- Claim C5 as amended: the resolved chapters are pairwise disjoint, and
every paragraph of the document lies in some chapter, or before the first
chapter's start (ungrouped leading paragraphs), or in a gap strictly
between one chapter's end and the next chapter's start (the paragraphs the
orphan-heading clamp cuts off); there are no ungrouped trailing
paragraphs. -/
theorem claim5_amended (hs : List Heading) (total min_level : Nat)
    (hsort : hs.Pairwise (fun a b => a.paragraph_index < b.paragraph_index))
    (hlt : ∀ h ∈ hs, h.paragraph_index < total) :
    (∀ (k j : Nat) (a b : ChapterInfo), k < j →
      (analyzeHeadings hs total min_level)[k]? = some a →
      (analyzeHeadings hs total min_level)[j]? = some b →
      ∀ p : Nat, p ∈ a.paragraphs → ¬ p ∈ b.paragraphs) ∧
    (∀ p : Nat, p < total →
      (∃ c ∈ analyzeHeadings hs total min_level, p ∈ c.paragraphs) ∨
      (∀ c0 : ChapterInfo, (analyzeHeadings hs total min_level).head? = some c0 →
        p < c0.start_paragraph) ∨
      (∃ k : Nat, ∃ a b : ChapterInfo,
        (analyzeHeadings hs total min_level)[k]? = some a ∧
        (analyzeHeadings hs total min_level)[k + 1]? = some b ∧
        a.end_paragraph < p ∧ p < b.start_paragraph)) := by
  have hmono := planChapters_start_pairwise hs min_level hsort
  have hclt : ∀ ch ∈ planChapters hs min_level, ch.start_paragraph < total := by
    intro ch hch
    obtain ⟨h, hm, he⟩ := planChapters_start_mem hs min_level ch hch
    rw [he]
    exact hlt h hm
  have houtpw : (analyzeHeadings hs total min_level).Pairwise
      (fun a b => a.start_paragraph < b.start_paragraph) := by
    have h1 := set_boundaries_map_start total hs (planChapters hs min_level)
    have h2 : ((planChapters hs min_level).map
        (fun c => c.start_paragraph)).Pairwise (fun a b => a < b) :=
      List.pairwise_map.mpr hmono
    rw [← h1] at h2
    exact List.pairwise_map.mp h2
  constructor
  · intro k j a b hkj hka hkb p hpa hpb
    have hamem : a ∈ analyzeHeadings hs total min_level := by
      obtain ⟨hb2, he2⟩ := List.getElem?_eq_some.mp hka
      rw [← he2]
      exact List.getElem_mem hb2
    have hbmem : b ∈ analyzeHeadings hs total min_level := by
      obtain ⟨hb2, he2⟩ := List.getElem?_eq_some.mp hkb
      rw [← he2]
      exact List.getElem_mem hb2
    have hapar := set_boundaries_paragraphs total hs (planChapters hs min_level) a hamem
    have hbpar := set_boundaries_paragraphs total hs (planChapters hs min_level) b hbmem
    rw [hapar, List.mem_range'_1] at hpa
    rw [hbpar, List.mem_range'_1] at hpb
    have hjlen : j < (analyzeHeadings hs total min_level).length := by
      obtain ⟨hb2, _⟩ := List.getElem?_eq_some.mp hkb
      exact hb2
    have hk1len : k + 1 < (analyzeHeadings hs total min_level).length := by omega
    obtain ⟨c, hkc⟩ : ∃ c : ChapterInfo,
        (analyzeHeadings hs total min_level)[k + 1]? = some c := by
      rw [List.getElem?_eq_getElem hk1len]
      exact ⟨_, rfl⟩
    have hend := set_boundaries_end_lt total hs (planChapters hs min_level) hmono k a c hka hkc
    have hcb : c.start_paragraph ≤ b.start_paragraph := by
      rcases Nat.eq_or_lt_of_le (by omega : k + 1 ≤ j) with heq | hlt3
      · rw [← heq] at hkb
        rw [hkc] at hkb
        injection hkb with hkb
        rw [hkb]
      · obtain ⟨hbc, hec⟩ := List.getElem?_eq_some.mp hkc
        obtain ⟨hbb, heb⟩ := List.getElem?_eq_some.mp hkb
        have := List.pairwise_iff_getElem.mp houtpw (k + 1) j hbc hbb hlt3
        rw [hec, heb] at this
        omega
    omega
  · intro p hp
    cases hhead : (analyzeHeadings hs total min_level).head? with
    | none =>
        right
        left
        intro c0 hc0
        exact Option.noConfusion hc0
    | some c0 =>
        by_cases hpc : p < c0.start_paragraph
        · right
          left
          intro c0' hc0'
          injection hc0' with hc0'
          rw [← hc0']
          exact hpc
        · have hc0p : c0.start_paragraph ≤ p := by omega
          obtain ⟨ch0, hch0, hch0s⟩ : ∃ ch0 : ChapterInfo,
              (planChapters hs min_level).head? = some ch0 ∧
                ch0.start_paragraph = c0.start_paragraph := by
            have h1 : (analyzeHeadings hs total min_level).map (fun c => c.start_paragraph) =
                (planChapters hs min_level).map (fun c => c.start_paragraph) :=
              set_boundaries_map_start total hs (planChapters hs min_level)
            have h2 : ((analyzeHeadings hs total min_level).map
                (fun c => c.start_paragraph)).head? = some c0.start_paragraph := by
              rw [List.head?_map, hhead]
              rfl
            rw [h1, List.head?_map] at h2
            cases hh : (planChapters hs min_level).head? with
            | none =>
                rw [hh] at h2
                exact Option.noConfusion h2
            | some ch0 =>
                rw [hh] at h2
                injection h2 with h2
                exact ⟨ch0, rfl, h2⟩
          rcases coverage_aux total hs (planChapters hs min_level) hclt p ch0 hp hch0
              (by omega) with hres | hres
          · left
            exact hres
          · right
            right
            exact hres

/-- Witness for the amended claim C5 on the clamped document cHeads over 6
paragraphs with min_level 3. -/
theorem claim5_witness :
    cHeads.Pairwise (fun a b => a.paragraph_index < b.paragraph_index) ∧
    (∀ h ∈ cHeads, h.paragraph_index < 6) ∧
    ((∀ (k j : Nat) (a b : ChapterInfo), k < j →
      (analyzeHeadings cHeads 6 3)[k]? = some a →
      (analyzeHeadings cHeads 6 3)[j]? = some b →
      ∀ p : Nat, p ∈ a.paragraphs → ¬ p ∈ b.paragraphs) ∧
    (∀ p : Nat, p < 6 →
      (∃ c ∈ analyzeHeadings cHeads 6 3, p ∈ c.paragraphs) ∨
      (∀ c0 : ChapterInfo, (analyzeHeadings cHeads 6 3).head? = some c0 →
        p < c0.start_paragraph) ∨
      (∃ k : Nat, ∃ a b : ChapterInfo,
        (analyzeHeadings cHeads 6 3)[k]? = some a ∧
        (analyzeHeadings cHeads 6 3)[k + 1]? = some b ∧
        a.end_paragraph < p ∧ p < b.start_paragraph))) :=
  ⟨by decide, by decide, claim5_amended cHeads 6 3 (by decide) (by decide)⟩

end WordSplitter
